import Mathlib

/-!
Shallow embedding of the collision-event engine of the billiard repository.

The repository has two variants:
* a rounded-rectangle billiard with an analytic collision solver
  (functions get_next_collision, generate_events, evaluate_trajectory);
* an implicit-surface billiard with an internal hole solved by
  ray-marching plus bisection (functions table_surface, get_normal,
  get_next_collision, generate_events, evaluate_trajectory).

Machine floats are modelled by real numbers, exactly as the claims about
exact arithmetic demand.  The float infinity returned by the solvers to
signal absence of a collision is modelled by Option: none stands for the
pair (inf, sentinel-normal) and some (t, n) for a finite collision time t
with inward normal n.  Division by zero is total in Lean (x / 0 = 0); every
place where this junk value could differ from the float behaviour is
guarded by the same tests the source performs, so results agree.
The unbounded while-loop of generate_events is given an explicit fuel
argument; every theorem below quantifies over the fuel.
-/

open scoped Classical

/-- A 2-vector of reals, the value type used by the source both for
positions and velocities (numpy arrays of length 2). -/
@[ext] structure Vec2 where
  x : ℝ
  y : ℝ

namespace Vec2

instance : Add Vec2 := ⟨fun a b => ⟨a.x + b.x, a.y + b.y⟩⟩
instance : Sub Vec2 := ⟨fun a b => ⟨a.x - b.x, a.y - b.y⟩⟩
instance : Neg Vec2 := ⟨fun a => ⟨-a.x, -a.y⟩⟩
instance : SMul ℝ Vec2 := ⟨fun c v => ⟨c * v.x, c * v.y⟩⟩
instance : Zero Vec2 := ⟨⟨0, 0⟩⟩

/-- Dot product, np.dot on length-2 arrays. -/
def dot (a b : Vec2) : ℝ := a.x * b.x + a.y * b.y

/-- Euclidean norm, np.linalg.norm. -/
noncomputable def norm (v : Vec2) : ℝ := Real.sqrt (v.x ^ 2 + v.y ^ 2)

/-- Componentwise division of a vector by its own norm, the idiom
v / np.linalg.norm(v) used by both solvers. -/
noncomputable def normalize (v : Vec2) : Vec2 := (1 / norm v) • v

end Vec2

/-- One entry of the event log: the time, position and velocity recorded by
generate_events at the start and at every collision. -/
structure Event where
  time : ℝ
  position : Vec2
  velocity : Vec2

instance : IsTrans Event (fun a b => a.time < b.time) :=
  ⟨fun _ _ _ h1 h2 => lt_trans h1 h2⟩

/-- Specular reflection V - 2 (V.N) N as applied by both variants of
generate_events. -/
noncomputable def reflect (V n : Vec2) : Vec2 := V - (2 * Vec2.dot V n) • n

/-! ### Rounded-rectangle variant: analytic collision solver -/

/-- One candidate update of the running minimum (t_min, normal): take the
new candidate when its acceptance condition holds and it beats the current
minimum, which is infinite when the state is none.  Mirrors the nested
conditionals of the straight-wall cases of get_next_collision. -/
noncomputable def upd (st : Option (ℝ × Vec2)) (cond : Prop) (t : ℝ) (n : Vec2) :
    Option (ℝ × Vec2) :=
  if cond ∧ ∀ p ∈ st, t < p.1 then some (t, n) else st

/-- The two vertical straight walls x = W/2 and x = -W/2: the if/elif on
the sign of V[0] in get_next_collision. -/
noncomputable def xWalls (P V : Vec2) (W H R : ℝ) (st : Option (ℝ × Vec2)) :
    Option (ℝ × Vec2) :=
  if 0 < V.x then
    upd st
      (1e-9 < (W / 2 - P.x) / V.x ∧
        |P.y + V.y * ((W / 2 - P.x) / V.x)| ≤ H / 2 - R)
      ((W / 2 - P.x) / V.x) ⟨-1, 0⟩
  else if V.x < 0 then
    upd st
      (1e-9 < (-W / 2 - P.x) / V.x ∧
        |P.y + V.y * ((-W / 2 - P.x) / V.x)| ≤ H / 2 - R)
      ((-W / 2 - P.x) / V.x) ⟨1, 0⟩
  else st

/-- The two horizontal straight walls y = H/2 and y = -H/2: the if/elif on
the sign of V[1] in get_next_collision. -/
noncomputable def yWalls (P V : Vec2) (W H R : ℝ) (st : Option (ℝ × Vec2)) :
    Option (ℝ × Vec2) :=
  if 0 < V.y then
    upd st
      (1e-9 < (H / 2 - P.y) / V.y ∧
        |P.x + V.x * ((H / 2 - P.y) / V.y)| ≤ W / 2 - R)
      ((H / 2 - P.y) / V.y) ⟨0, -1⟩
  else if V.y < 0 then
    upd st
      (1e-9 < (-H / 2 - P.y) / V.y ∧
        |P.x + V.x * ((-H / 2 - P.y) / V.y)| ≤ W / 2 - R)
      ((-H / 2 - P.y) / V.y) ⟨0, 1⟩
  else st

/-- The corner-quadrant membership test of get_next_collision, with its
1e-6 tolerance. -/
def quadrantOk (C hit : Vec2) : Prop :=
  ((0 < C.x ∧ C.x - 1e-6 ≤ hit.x) ∨ (C.x < 0 ∧ hit.x ≤ C.x + 1e-6)) ∧
  ((0 < C.y ∧ C.y - 1e-6 ≤ hit.y) ∨ (C.y < 0 ∧ hit.y ≤ C.y + 1e-6))

/-- Processing of one quadratic root t inside the corner loop: accept it
when it is past the 1e-9 guard, beats the current minimum and its hit
point lies in the corner quadrant; the inward normal is (C - hit)/R
renormalized. -/
noncomputable def tryRoot (P V C : Vec2) (R t : ℝ) (st : Option (ℝ × Vec2)) :
    Option (ℝ × Vec2) :=
  if 1e-9 < t ∧ ∀ p ∈ st, t < p.1 then
    if quadrantOk C (P + t • V) then
      some (t, Vec2.normalize ((1 / R) • (C - (P + t • V))))
    else st
  else st

/-- One corner circle of center C and radius R: the quadratic
|P + t V - C|^2 = R^2 is solved and its two roots are tried in order,
guarded by the sign of the discriminant, exactly as in the corner loop of
get_next_collision. -/
noncomputable def cornerUpd (P V : Vec2) (R : ℝ) (C : Vec2)
    (st : Option (ℝ × Vec2)) : Option (ℝ × Vec2) :=
  let q := Vec2.dot V V
  let b := 2 * Vec2.dot V (P - C)
  let c := Vec2.dot (P - C) (P - C) - R ^ 2
  let disc := b ^ 2 - 4 * q * c
  if 0 ≤ disc then
    tryRoot P V C R ((-b + Real.sqrt disc) / (2 * q))
      (tryRoot P V C R ((-b - Real.sqrt disc) / (2 * q)) st)
  else st

/-- get_next_collision of the rounded-rectangle variant: four straight
walls, then the four corner circles in the order top-right, top-left,
bottom-left, bottom-right.  none models the float('inf') no-collision
result. -/
noncomputable def adsGetNextCollision (P V : Vec2) (W H R : ℝ) :
    Option (ℝ × Vec2) :=
  cornerUpd P V R ⟨W / 2 - R, -H / 2 + R⟩
    (cornerUpd P V R ⟨-W / 2 + R, -H / 2 + R⟩
      (cornerUpd P V R ⟨-W / 2 + R, H / 2 - R⟩
        (cornerUpd P V R ⟨W / 2 - R, H / 2 - R⟩
          (yWalls P V W H R (xWalls P V W H R none)))))

/-- The initial heading of both variants, np.radians(37). -/
noncomputable def th37 : ℝ := 37 * Real.pi / 180

/-! ### Implicit-surface variant with internal hole -/

/-- Two-argument arctangent with the quadrant conventions of
np.arctan2 (range (-pi, pi], arctan2 0 0 = 0). -/
noncomputable def arctan2 (y x : ℝ) : ℝ :=
  if 0 < x then Real.arctan (y / x)
  else if x < 0 then
    (if 0 ≤ y then Real.arctan (y / x) + Real.pi
     else Real.arctan (y / x) - Real.pi)
  else
    (if 0 < y then Real.pi / 2 else if y < 0 then -(Real.pi / 2) else 0)

/-- The multi-harmonic ripple modulation factor
1 + eps (sin th + 0.8 cos(k th - 1.2) - 0.5 sin((k+1) th + 2.0))
shared by the outer boundary and the hole of table_surface. -/
noncomputable def rippleFactor (k eps th : ℝ) : ℝ :=
  1 + eps * (Real.sin th + 0.8 * Real.cos (k * th - 1.2)
    - 0.5 * Real.sin ((k + 1) * th + 2.0))

/-- Radius of the axis-aligned ellipse of half-axes a, b at angle th,
the expression 1/sqrt((cos th / a)^2 + (sin th / b)^2) of table_surface. -/
noncomputable def rEll (a b th : ℝ) : ℝ :=
  1 / Real.sqrt ((Real.cos th / a) ^ 2 + (Real.sin th / b) ^ 2)

/-- table_surface of the hole variant: the signed implicit function whose
zero level set is the playable boundary, max(f_outer, -f_inner), negative
inside the playable region. -/
noncomputable def tableSurface (x y W H k eps : ℝ) : ℝ :=
  let thOut := arctan2 y x
  let rOut := rEll (W / 2) (H / 2) thOut * rippleFactor k eps thOut
  let fOuter := Real.sqrt (x ^ 2 + y ^ 2) - rOut
  let dx := x - W * 0.05
  let dy := y - H * 0.05
  let thIn := arctan2 dy dx
  let rIn := rEll (W * 0.35 / 2) (H * 0.35 / 2) thIn * rippleFactor 1 eps thIn
  let fInner := Real.sqrt (dx ^ 2 + dy ^ 2) - rIn
  max fOuter (-fInner)

/-- The surface value seen along the ray P + t V, the quantity the
ray-march and the bisection of the hole-variant get_next_collision
repeatedly sample. -/
noncomputable def rayG (P V : Vec2) (W H k eps : ℝ) (t : ℝ) : ℝ :=
  tableSurface (P.x + V.x * t) (P.y + V.y * t) W H k eps

/-- The ray-march loop of the hole-variant get_next_collision: starting
from time t, repeatedly test the surface one step further; return the time
just before the first step whose endpoint is strictly outside (surface
positive), or none when the step budget is exhausted. -/
noncomputable def march (g : ℝ → ℝ) (s : ℝ) : ℕ → ℝ → Option ℝ
  | 0, _ => none
  | n + 1, t => if 0 < g (t + s) then some t else march g s n (t + s)

/-- The bisection loop of the hole-variant get_next_collision: n halvings
of the bracket (lo, hi), keeping the upper end strictly outside. -/
noncomputable def bisect (g : ℝ → ℝ) : ℕ → ℝ → ℝ → ℝ × ℝ
  | 0, lo, hi => (lo, hi)
  | n + 1, lo, hi =>
    if 0 < g ((lo + hi) / 2) then bisect g n lo ((lo + hi) / 2)
    else bisect g n ((lo + hi) / 2) hi

/-- The central finite-difference gradient of table_surface with step
h = 1e-6, computed by get_normal. -/
noncomputable def gradVec (W H k eps x y : ℝ) : Vec2 :=
  ⟨(tableSurface (x + 1e-6) y W H k eps - tableSurface (x - 1e-6) y W H k eps)
      / (2 * 1e-6),
   (tableSurface x (y + 1e-6) W H k eps - tableSurface x (y - 1e-6) W H k eps)
      / (2 * 1e-6)⟩

/-- get_normal of the hole variant: the finite-difference gradient divided
by its own norm (outward normal). -/
noncomputable def getNormal (W H k eps x y : ℝ) : Vec2 :=
  Vec2.normalize (gradVec W H k eps x y)

/-- The hit time t_hit computed by the hole-variant get_next_collision
once the march has bracketed a crossing at lo: the midpoint of the bracket
after 45 bisection iterations on (lo, lo + step). -/
noncomputable def holeHit (P V : Vec2) (W H k eps lo : ℝ) : ℝ :=
  ((bisect (rayG P V W H k eps) 45 lo (lo + 0.01 / Vec2.norm V)).1 +
    (bisect (rayG P V W H k eps) 45 lo (lo + 0.01 / Vec2.norm V)).2) / 2

/-- get_next_collision of the hole variant: march from offset 1e-5 in
steps 0.01/|V| for at most 30000 steps, then refine the bracketing step by
45 bisection iterations; the hit time is the final bracket midpoint and
the returned normal is the negated outward normal there.  none models the
float('inf') no-collision result. -/
noncomputable def holeGetNextCollision (P V : Vec2) (W H k eps : ℝ) :
    Option (ℝ × Vec2) :=
  match march (rayG P V W H k eps) (0.01 / Vec2.norm V) 30000 1e-5 with
  | none => none
  | some lo =>
    some (holeHit P V W H k eps lo,
      -(getNormal W H k eps (P + holeHit P V W H k eps lo • V).x
        (P + holeHit P V W H k eps lo • V).y))

/-! ### Event generator and trajectory evaluator (shared loop shape) -/

/-- The body of the while-loop of generate_events, identical in both
variants up to the solver it queries: while the accumulated time is below
the horizon, ask the solver for the next collision; stop on none,
otherwise advance the position, reflect the velocity and append the event.
The fuel argument bounds the number of iterations of the unbounded Python
loop; all theorems quantify over it. -/
noncomputable def stepLoop (solver : Vec2 → Vec2 → Option (ℝ × Vec2))
    (maxT : ℝ) : ℕ → ℝ → Vec2 → Vec2 → List Event
  | 0, _, _, _ => []
  | fuel + 1, ct, P, V =>
    if ct < maxT then
      match solver P V with
      | none => []
      | some (dt, n) =>
        ⟨ct + dt, P + dt • V, reflect V n⟩ ::
          stepLoop solver maxT fuel (ct + dt) (P + dt • V) (reflect V n)
    else []

/-- generate_events: the initial event (t = 0, start position, initial
velocity) followed by the collision events produced by the loop. -/
noncomputable def genEvents (solver : Vec2 → Vec2 → Option (ℝ × Vec2))
    (P0 V0 : Vec2) (maxT : ℝ) (fuel : ℕ) : List Event :=
  ⟨0, P0, V0⟩ :: stepLoop solver maxT fuel 0 P0 V0

/-- generate_events of the rounded-rectangle variant: start at the origin
with heading 37 degrees and the given speed. -/
noncomputable def adsGenerateEvents (W H R speed maxT : ℝ) (fuel : ℕ) :
    List Event :=
  genEvents (fun P V => adsGetNextCollision P V W H R) ⟨0, 0⟩
    (speed • ⟨Real.cos th37, Real.sin th37⟩) maxT fuel

/-- generate_events of the hole variant: start at (-W/3, 0) with heading
37 degrees and the given speed. -/
noncomputable def holeGenerateEvents (W H k eps speed maxT : ℝ) (fuel : ℕ) :
    List Event :=
  genEvents (fun P V => holeGetNextCollision P V W H k eps) ⟨-W / 3, 0⟩
    (speed • ⟨Real.cos th37, Real.sin th37⟩) maxT fuel

/-- The number of event times strictly below the query time t; on the
sorted event logs the source produces this equals the left insertion point
computed by np.searchsorted(times, t). -/
noncomputable def countLt (log : List Event) (t : ℝ) : ℕ :=
  List.countP (fun e => decide (e.time < t)) log

/-- The event index selected by evaluate_trajectory:
np.clip(np.searchsorted(times, t) - 1, 0, len(times) - 1).  Truncated
subtraction on ℕ gives exactly the lower clip at 0. -/
noncomputable def evalIdx (log : List Event) (t : ℝ) : ℕ :=
  min (countLt log t - 1) (log.length - 1)

/-- The default event used to totalize list indexing; the source never
indexes out of bounds on a non-empty log, so no theorem depends on it. -/
def dfltEvent : Event := ⟨0, ⟨0, 0⟩, ⟨0, 0⟩⟩

/-- evaluate_trajectory at a single query time: linear motion from the
selected event.  The numpy source maps this computation over an array of
query times. -/
noncomputable def evaluateTrajectory (log : List Event) (t : ℝ) : Vec2 :=
  let e := log.getD (evalIdx log t) dfltEvent
  e.position + (t - e.time) • e.velocity

/-! ### Componentwise algebra of Vec2 -/

namespace Vec2

@[simp] theorem add_x (a b : Vec2) : (a + b).x = a.x + b.x := rfl
@[simp] theorem add_y (a b : Vec2) : (a + b).y = a.y + b.y := rfl
@[simp] theorem sub_x (a b : Vec2) : (a - b).x = a.x - b.x := rfl
@[simp] theorem sub_y (a b : Vec2) : (a - b).y = a.y - b.y := rfl
@[simp] theorem neg_x (a : Vec2) : (-a).x = -a.x := rfl
@[simp] theorem neg_y (a : Vec2) : (-a).y = -a.y := rfl
@[simp] theorem smul_x (c : ℝ) (v : Vec2) : (c • v).x = c * v.x := rfl
@[simp] theorem smul_y (c : ℝ) (v : Vec2) : (c • v).y = c * v.y := rfl
@[simp] theorem mk_x (a b : ℝ) : (Vec2.mk a b).x = a := rfl
@[simp] theorem mk_y (a b : ℝ) : (Vec2.mk a b).y = b := rfl
@[simp] theorem zero_x : (0 : Vec2).x = 0 := rfl
@[simp] theorem zero_y : (0 : Vec2).y = 0 := rfl

theorem norm_nonneg (v : Vec2) : 0 ≤ norm v := Real.sqrt_nonneg _

theorem norm_eq_one_of_sq (v : Vec2) (h : v.x ^ 2 + v.y ^ 2 = 1) :
    norm v = 1 := by
  rw [norm, h, Real.sqrt_one]

theorem norm_pos_of_ne_zero (v : Vec2) (h : v ≠ 0) : 0 < norm v := by
  rw [norm, Real.sqrt_pos]
  by_contra h0
  push_neg at h0
  have hx : v.x = 0 := by nlinarith [sq_nonneg v.x, sq_nonneg v.y]
  have hy : v.y = 0 := by nlinarith [sq_nonneg v.x, sq_nonneg v.y]
  exact h (by ext <;> simp [hx, hy])

theorem normSq_eq (v : Vec2) : norm v ^ 2 = v.x ^ 2 + v.y ^ 2 := by
  rw [norm, Real.sq_sqrt (by positivity)]

theorem norm_normalize (v : Vec2) (h : v ≠ 0) : norm (normalize v) = 1 := by
  have hp := norm_pos_of_ne_zero v h
  apply norm_eq_one_of_sq
  have hsq := normSq_eq v
  simp only [normalize, smul_x, smul_y]
  field_simp
  nlinarith [hsq]

theorem norm_neg_eq (v : Vec2) : norm (-v) = norm v := by
  simp [norm]

end Vec2

/-- Reflection about a unit normal preserves the Euclidean norm. -/
theorem reflect_norm (V n : Vec2) (h : Vec2.norm n = 1) :
    Vec2.norm (reflect V n) = Vec2.norm V := by
  have hn : n.x ^ 2 + n.y ^ 2 = 1 := by
    have := Vec2.normSq_eq n
    rw [h] at this
    nlinarith [this]
  unfold reflect Vec2.norm Vec2.dot
  congr 1
  simp only [Vec2.sub_x, Vec2.sub_y, Vec2.smul_x, Vec2.smul_y]
  linear_combination (4 * (V.x * n.x + V.y * n.y) ^ 2) * hn

/-! ### Invariants of the rounded-rectangle solver -/

theorem upd_inv {Q : ℝ × Vec2 → Prop} {st : Option (ℝ × Vec2)}
    {cond : Prop} {t : ℝ} {n : Vec2}
    (hst : ∀ p, st = some p → Q p) (hnew : cond → Q (t, n)) :
    ∀ p, upd st cond t n = some p → Q p := by
  intro p hp
  unfold upd at hp
  split at hp
  · next h =>
    cases hp
    exact hnew h.1
  · exact hst p hp

theorem tryRoot_inv {Q : ℝ × Vec2 → Prop} {st : Option (ℝ × Vec2)}
    {P V C : Vec2} {R t : ℝ}
    (hst : ∀ p, st = some p → Q p)
    (hnew : 1e-9 < t → quadrantOk C (P + t • V) →
      Q (t, Vec2.normalize ((1 / R) • (C - (P + t • V))))) :
    ∀ p, tryRoot P V C R t st = some p → Q p := by
  intro p hp
  unfold tryRoot at hp
  split at hp
  · next h =>
    split at hp
    · next hq =>
      cases hp
      exact hnew h.1 hq
    · exact hst p hp
  · exact hst p hp

theorem xWalls_inv {Q : ℝ × Vec2 → Prop} {st : Option (ℝ × Vec2)}
    {P V : Vec2} {W H R : ℝ}
    (hst : ∀ p, st = some p → Q p)
    (hnew : ∀ t, 1e-9 < t → Q (t, ⟨-1, 0⟩) ∧ Q (t, ⟨1, 0⟩)) :
    ∀ p, xWalls P V W H R st = some p → Q p := by
  intro p hp
  unfold xWalls at hp
  split at hp
  · exact upd_inv hst (fun h => (hnew _ h.1).1) p hp
  · split at hp
    · exact upd_inv hst (fun h => (hnew _ h.1).2) p hp
    · exact hst p hp

theorem yWalls_inv {Q : ℝ × Vec2 → Prop} {st : Option (ℝ × Vec2)}
    {P V : Vec2} {W H R : ℝ}
    (hst : ∀ p, st = some p → Q p)
    (hnew : ∀ t, 1e-9 < t → Q (t, ⟨0, -1⟩) ∧ Q (t, ⟨0, 1⟩)) :
    ∀ p, yWalls P V W H R st = some p → Q p := by
  intro p hp
  unfold yWalls at hp
  split at hp
  · exact upd_inv hst (fun h => (hnew _ h.1).1) p hp
  · split at hp
    · exact upd_inv hst (fun h => (hnew _ h.1).2) p hp
    · exact hst p hp

theorem quadRoot_neg (q b c d : ℝ) (hq : q ≠ 0) (hd2 : d ^ 2 = b ^ 2 - 4 * q * c) :
    q * ((-b - d) / (2 * q)) ^ 2 + b * ((-b - d) / (2 * q)) + c = 0 := by
  field_simp
  linear_combination 2 * q ^ 2 * hd2

theorem quadRoot_pos (q b c d : ℝ) (hq : q ≠ 0) (hd2 : d ^ 2 = b ^ 2 - 4 * q * c) :
    q * ((-b + d) / (2 * q)) ^ 2 + b * ((-b + d) / (2 * q)) + c = 0 := by
  field_simp
  linear_combination 2 * q ^ 2 * hd2

theorem cornerUpd_inv {Q : ℝ × Vec2 → Prop} {st : Option (ℝ × Vec2)}
    {P V : Vec2} {R : ℝ} {C : Vec2}
    (hst : ∀ p, st = some p → Q p)
    (hnew : ∀ t, 1e-9 < t →
      Vec2.dot V V * t ^ 2 + 2 * Vec2.dot V (P - C) * t +
        (Vec2.dot (P - C) (P - C) - R ^ 2) = 0 →
      quadrantOk C (P + t • V) →
      Q (t, Vec2.normalize ((1 / R) • (C - (P + t • V))))) :
    ∀ p, cornerUpd P V R C st = some p → Q p := by
  intro p hp
  unfold cornerUpd at hp
  simp only at hp
  split at hp
  · next hd =>
    by_cases hq : Vec2.dot V V = 0
    · -- degenerate quadratic: both computed roots are the junk value 0,
      -- rejected by the 1e-9 guard, so the state passes through
      have hz : ∀ u : ℝ, u / (2 * Vec2.dot V V) = 0 := by
        intro u
        rw [hq]
        simp
      rw [hz, hz] at hp
      have h0 : ¬ (1e-9 < (0 : ℝ)) := by norm_num
      refine tryRoot_inv (Q := Q) (tryRoot_inv (Q := Q) hst ?_) ?_ p hp
      · intro h
        exact absurd h h0
      · intro h
        exact absurd h h0
    · set d := Real.sqrt ((2 * Vec2.dot V (P - C)) ^ 2 -
        4 * Vec2.dot V V * (Vec2.dot (P - C) (P - C) - R ^ 2)) with hdd
      have hd2 : d ^ 2 = (2 * Vec2.dot V (P - C)) ^ 2 -
          4 * Vec2.dot V V * (Vec2.dot (P - C) (P - C) - R ^ 2) :=
        Real.sq_sqrt hd
      refine tryRoot_inv (Q := Q) (tryRoot_inv (Q := Q) hst ?_) ?_ p hp
      · intro ht hquad
        exact hnew _ ht (quadRoot_neg _ _ _ _ hq hd2) hquad
      · intro ht hquad
        exact hnew _ ht (quadRoot_pos _ _ _ _ hq hd2) hquad
  · exact hst p hp

/-- Every finite collision time accepted by the rounded-rectangle solver
passed the 1e-9 guard. -/
theorem ads_time_pos (P V : Vec2) (W H R : ℝ) (t : ℝ) (n : Vec2)
    (h : adsGetNextCollision P V W H R = some (t, n)) : 1e-9 < t := by
  have hQ : ∀ p : ℝ × Vec2, adsGetNextCollision P V W H R = some p →
      1e-9 < p.1 := by
    unfold adsGetNextCollision
    refine cornerUpd_inv (cornerUpd_inv (cornerUpd_inv (cornerUpd_inv
      (yWalls_inv (xWalls_inv ?_ ?_) ?_) ?_) ?_) ?_) ?_
    · intro p hp
      cases hp
    · intro u hu
      exact ⟨hu, hu⟩
    · intro u hu
      exact ⟨hu, hu⟩
    all_goals
      intro u hu hroot hquad
      exact hu
  exact hQ (t, n) h

/-- Every normal returned by the rounded-rectangle solver together with a
finite time is a unit vector, provided the corner radius is nonzero. -/
theorem ads_normal_unit (P V : Vec2) (W H R : ℝ) (hR : R ≠ 0) (t : ℝ)
    (n : Vec2) (h : adsGetNextCollision P V W H R = some (t, n)) :
    Vec2.norm n = 1 := by
  have hwall : ∀ a b : ℝ, a ^ 2 + b ^ 2 = 1 →
      Vec2.norm (Vec2.mk a b) = 1 := by
    intro a b hab
    exact Vec2.norm_eq_one_of_sq _ (by simpa using hab)
  have hcorner : ∀ (C : Vec2) (u : ℝ),
      Vec2.dot V V * u ^ 2 + 2 * Vec2.dot V (P - C) * u +
        (Vec2.dot (P - C) (P - C) - R ^ 2) = 0 →
      Vec2.norm (Vec2.normalize ((1 / R) • (C - (P + u • V)))) = 1 := by
    intro C u hroot
    have hsq : ((1 / R) • (C - (P + u • V))).x ^ 2 +
        ((1 / R) • (C - (P + u • V))).y ^ 2 = 1 := by
      simp only [Vec2.smul_x, Vec2.smul_y, Vec2.sub_x, Vec2.sub_y,
        Vec2.add_x, Vec2.add_y]
      have hcc : (C.x - (P.x + u * V.x)) ^ 2 + (C.y - (P.y + u * V.y)) ^ 2
          = R ^ 2 := by
        unfold Vec2.dot at hroot
        simp only [Vec2.sub_x, Vec2.sub_y] at hroot
        nlinarith [hroot]
      field_simp
      linarith [hcc]
    have hne : (1 / R) • (C - (P + u • V)) ≠ 0 := by
      intro hzero
      rw [hzero] at hsq
      simp only [Vec2.zero_x, Vec2.zero_y] at hsq
      norm_num at hsq
    exact Vec2.norm_normalize _ hne
  have hQ : ∀ p : ℝ × Vec2, adsGetNextCollision P V W H R = some p →
      Vec2.norm p.2 = 1 := by
    unfold adsGetNextCollision
    refine cornerUpd_inv (cornerUpd_inv (cornerUpd_inv (cornerUpd_inv
      (yWalls_inv (xWalls_inv ?_ ?_) ?_) ?_) ?_) ?_) ?_
    · intro p hp
      cases hp
    · intro u hu
      constructor
      · exact hwall _ _ (by norm_num)
      · exact hwall _ _ (by norm_num)
    · intro u hu
      constructor
      · exact hwall _ _ (by norm_num)
      · exact hwall _ _ (by norm_num)
    all_goals
      intro u hu hroot hquad
      exact hcorner _ u hroot
  exact hQ (t, n) h

/-! ### Invariants of the ray-march and the bisection -/

theorem march_eq_none_iff (g : ℝ → ℝ) (s : ℝ) :
    ∀ (n : ℕ) (t : ℝ), march g s n t = none ↔
      ∀ i : ℕ, i < n → g (t + (i + 1) * s) ≤ 0 := by
  intro n
  induction n with
  | zero =>
    intro t
    simp [march]
  | succ m ih =>
    intro t
    unfold march
    split
    · next hpos =>
      simp only [reduceCtorEq, false_iff, not_forall]
      refine ⟨0, by omega, ?_⟩
      push_neg
      simpa using hpos
    · next hneg =>
      push_neg at hneg
      rw [ih (t + s)]
      constructor
      · intro hall i hi
        match i, hi with
        | 0, _ => simpa using hneg
        | j + 1, hj =>
          have hthis := hall j (by omega)
          push_cast at hthis ⊢
          have harith : t + s + ((j : ℝ) + 1) * s = t + ((j : ℝ) + 1 + 1) * s := by
            ring
          rw [harith] at hthis
          exact hthis
      · intro hall i hi
        have hthis := hall (i + 1) (by omega)
        push_cast at hthis ⊢
        have harith : t + ((i : ℝ) + 1 + 1) * s = t + s + ((i : ℝ) + 1) * s := by
          ring
        rw [harith] at hthis
        exact hthis

theorem march_some (g : ℝ → ℝ) (s : ℝ) (hs : 0 ≤ s) :
    ∀ (n : ℕ) (t lo : ℝ), march g s n t = some lo →
      0 < g (lo + s) ∧ (lo = t ∨ g lo ≤ 0) ∧ t ≤ lo := by
  intro n
  induction n with
  | zero =>
    intro t lo h
    cases h
  | succ m ih =>
    intro t lo h
    unfold march at h
    split at h
    · next hpos =>
      cases h
      exact ⟨hpos, Or.inl rfl, le_refl _⟩
    · next hneg =>
      push_neg at hneg
      obtain ⟨h1, h2, h3⟩ := ih (t + s) lo h
      refine ⟨h1, ?_, by linarith⟩
      rcases h2 with h2 | h2
      · right
        rw [h2]
        exact hneg
      · right
        exact h2

theorem bisect_mem (g : ℝ → ℝ) :
    ∀ (n : ℕ) (lo hi : ℝ), lo ≤ hi →
      lo ≤ (bisect g n lo hi).1 ∧
      (bisect g n lo hi).1 ≤ (bisect g n lo hi).2 ∧
      (bisect g n lo hi).2 ≤ hi := by
  intro n
  induction n with
  | zero =>
    intro lo hi hle
    exact ⟨le_refl _, hle, le_refl _⟩
  | succ m ih =>
    intro lo hi hle
    unfold bisect
    have hmid1 : lo ≤ (lo + hi) / 2 := by linarith
    have hmid2 : (lo + hi) / 2 ≤ hi := by linarith
    split
    · obtain ⟨a, b, c⟩ := ih lo ((lo + hi) / 2) hmid1
      exact ⟨a, b, le_trans c hmid2⟩
    · obtain ⟨a, b, c⟩ := ih ((lo + hi) / 2) hi hmid2
      exact ⟨le_trans hmid1 a, b, c⟩

theorem bisect_width (g : ℝ → ℝ) :
    ∀ (n : ℕ) (lo hi : ℝ),
      (bisect g n lo hi).2 - (bisect g n lo hi).1 = (hi - lo) / 2 ^ n := by
  intro n
  induction n with
  | zero =>
    intro lo hi
    simp [bisect]
  | succ m ih =>
    intro lo hi
    unfold bisect
    split
    · rw [ih]
      ring
    · rw [ih]
      ring

theorem bisect_high_pos (g : ℝ → ℝ) :
    ∀ (n : ℕ) (lo hi : ℝ), 0 < g hi → 0 < g (bisect g n lo hi).2 := by
  intro n
  induction n with
  | zero =>
    intro lo hi h
    exact h
  | succ m ih =>
    intro lo hi h
    unfold bisect
    split
    · next hmid => exact ih _ _ hmid
    · exact ih _ _ h

theorem bisect_low_cases (g : ℝ → ℝ) :
    ∀ (n : ℕ) (lo hi : ℝ),
      (bisect g n lo hi).1 = lo ∨ g (bisect g n lo hi).1 ≤ 0 := by
  intro n
  induction n with
  | zero =>
    intro lo hi
    exact Or.inl rfl
  | succ m ih =>
    intro lo hi
    unfold bisect
    split
    · exact ih _ _
    · next hmid =>
      push_neg at hmid
      rcases ih ((lo + hi) / 2) hi with h | h
      · right
        rw [h]
        exact hmid
      · right
        exact h

theorem bisect_all_pos (g : ℝ → ℝ) :
    ∀ (n : ℕ) (lo hi : ℝ), lo ≤ hi →
      (∀ u, lo ≤ u → u ≤ hi → 0 < g u) →
      bisect g n lo hi = (lo, lo + (hi - lo) / 2 ^ n) := by
  intro n
  induction n with
  | zero =>
    intro lo hi hle hpos
    simp [bisect]
  | succ m ih =>
    intro lo hi hle hpos
    have hmid1 : lo ≤ (lo + hi) / 2 := by linarith
    have hmid2 : (lo + hi) / 2 ≤ hi := by linarith
    unfold bisect
    rw [if_pos (hpos _ hmid1 hmid2)]
    rw [ih lo ((lo + hi) / 2) hmid1
      (fun u hu1 hu2 => hpos u hu1 (le_trans hu2 hmid2))]
    have : (lo + hi) / 2 - lo = (hi - lo) / 2 := by ring
    rw [Prod.mk.injEq]
    constructor
    · rfl
    · rw [this]
      ring

/-! ### Structure of the hole-variant solver results -/

theorem hole_none_iff (P V : Vec2) (W H k eps : ℝ) :
    holeGetNextCollision P V W H k eps = none ↔
      ∀ i : ℕ, i < 30000 →
        rayG P V W H k eps (1e-5 + (i + 1) * (0.01 / Vec2.norm V)) ≤ 0 := by
  rw [← march_eq_none_iff (rayG P V W H k eps) (0.01 / Vec2.norm V) 30000 1e-5]
  unfold holeGetNextCollision
  cases hm : march (rayG P V W H k eps) (0.01 / Vec2.norm V) 30000 1e-5 with
  | none => simp [hm]
  | some lo => simp [hm]

theorem hole_some_bracket (P V : Vec2) (W H k eps t : ℝ) (n : Vec2)
    (h : holeGetNextCollision P V W H k eps = some (t, n)) :
    ∃ lo : ℝ,
      march (rayG P V W H k eps) (0.01 / Vec2.norm V) 30000 1e-5 = some lo ∧
      (lo = 1e-5 ∨ rayG P V W H k eps lo ≤ 0) ∧
      0 < rayG P V W H k eps (lo + 0.01 / Vec2.norm V) ∧
      0 < rayG P V W H k eps
        (bisect (rayG P V W H k eps) 45 lo (lo + 0.01 / Vec2.norm V)).2 ∧
      (bisect (rayG P V W H k eps) 45 lo (lo + 0.01 / Vec2.norm V)).2 -
        (bisect (rayG P V W H k eps) 45 lo (lo + 0.01 / Vec2.norm V)).1 =
        (0.01 / Vec2.norm V) / 2 ^ 45 ∧
      t = ((bisect (rayG P V W H k eps) 45 lo (lo + 0.01 / Vec2.norm V)).1 +
        (bisect (rayG P V W H k eps) 45 lo (lo + 0.01 / Vec2.norm V)).2) / 2 ∧
      ((bisect (rayG P V W H k eps) 45 lo (lo + 0.01 / Vec2.norm V)).1 = 1e-5 ∨
        rayG P V W H k eps
          (bisect (rayG P V W H k eps) 45 lo (lo + 0.01 / Vec2.norm V)).1 ≤ 0) ∧
      n = -(getNormal W H k eps (P.x + V.x * t) (P.y + V.y * t)) ∧
      1e-5 ≤ t := by
  have hs0 : (0 : ℝ) ≤ 0.01 / Vec2.norm V :=
    div_nonneg (by norm_num) (Vec2.norm_nonneg V)
  unfold holeGetNextCollision at h
  cases hm : march (rayG P V W H k eps) (0.01 / Vec2.norm V) 30000 1e-5 with
  | none =>
    rw [hm] at h
    cases h
  | some lo =>
    rw [hm] at h
    simp only [Option.some.injEq, Prod.mk.injEq] at h
    obtain ⟨ht, hn⟩ := h
    obtain ⟨hpos, hcase, hge⟩ :=
      march_some (rayG P V W H k eps) (0.01 / Vec2.norm V) hs0 30000 1e-5 lo hm
    obtain ⟨hb1, hb2, hb3⟩ :=
      bisect_mem (rayG P V W H k eps) 45 lo (lo + 0.01 / Vec2.norm V)
        (by linarith)
    refine ⟨lo, rfl, ?_, hpos, ?_, ?_, ht.symm, ?_, ?_, ?_⟩
    · rcases hcase with hc | hc
      · exact Or.inl hc
      · exact Or.inr hc
    · exact bisect_high_pos _ 45 _ _ hpos
    · have hw := bisect_width (rayG P V W H k eps) 45 lo
        (lo + 0.01 / Vec2.norm V)
      rw [add_sub_cancel_left] at hw
      exact hw
    · rcases bisect_low_cases (rayG P V W H k eps) 45 lo
        (lo + 0.01 / Vec2.norm V) with hc | hc
      · rcases hcase with hc2 | hc2
        · exact Or.inl (hc.trans hc2)
        · right
          rw [hc]
          exact hc2
      · exact Or.inr hc
    · rw [← hn, ← ht]
      simp only [Vec2.add_x, Vec2.add_y, Vec2.smul_x, Vec2.smul_y]
      ring_nf
    · rw [← ht]
      unfold holeHit
      linarith

/-- Every finite collision time returned by the hole-variant solver is at
least the initial march offset 1e-5. -/
theorem hole_time_pos (P V : Vec2) (W H k eps t : ℝ) (n : Vec2)
    (h : holeGetNextCollision P V W H k eps = some (t, n)) : 0 < t := by
  obtain ⟨lo, _, _, _, _, _, _, _, _, hge⟩ :=
    hole_some_bracket P V W H k eps t n h
  linarith

/-- The normal returned by the hole-variant solver is the negated
normalized finite-difference gradient at the hit point; it is a unit
vector whenever that gradient is nonzero. -/
theorem hole_normal_unit (P V : Vec2) (W H k eps t : ℝ) (n : Vec2)
    (h : holeGetNextCollision P V W H k eps = some (t, n))
    (hg : gradVec W H k eps (P.x + V.x * t) (P.y + V.y * t) ≠ 0) :
    Vec2.norm n = 1 := by
  obtain ⟨lo, _, _, _, _, _, _, _, hn, _⟩ :=
    hole_some_bracket P V W H k eps t n h
  rw [hn, Vec2.norm_neg_eq]
  exact Vec2.norm_normalize _ hg

/-! ### Invariants of the event-generation loop -/

theorem stepLoop_chain {RR : Event → Event → Prop}
    (solver : Vec2 → Vec2 → Option (ℝ × Vec2)) (maxT : ℝ)
    (hstep : ∀ (ct : ℝ) (P V : Vec2) (dt : ℝ) (nrm : Vec2),
      solver P V = some (dt, nrm) →
      RR ⟨ct, P, V⟩ ⟨ct + dt, P + dt • V, reflect V nrm⟩) :
    ∀ (fuel : ℕ) (ct : ℝ) (P V : Vec2),
      List.Chain RR ⟨ct, P, V⟩ (stepLoop solver maxT fuel ct P V) := by
  intro fuel
  induction fuel with
  | zero =>
    intro ct P V
    exact List.Chain.nil
  | succ m ih =>
    intro ct P V
    unfold stepLoop
    split
    · cases hs : solver P V with
      | none => exact List.Chain.nil
      | some p =>
        obtain ⟨dt, nrm⟩ := p
        exact List.Chain.cons (hstep ct P V dt nrm hs) (ih _ _ _)
    · exact List.Chain.nil

theorem genEvents_chain {RR : Event → Event → Prop}
    (solver : Vec2 → Vec2 → Option (ℝ × Vec2)) (P0 V0 : Vec2) (maxT : ℝ)
    (fuel : ℕ)
    (hstep : ∀ (ct : ℝ) (P V : Vec2) (dt : ℝ) (nrm : Vec2),
      solver P V = some (dt, nrm) →
      RR ⟨ct, P, V⟩ ⟨ct + dt, P + dt • V, reflect V nrm⟩) :
    List.Chain' RR (genEvents solver P0 V0 maxT fuel) :=
  stepLoop_chain solver maxT hstep fuel 0 P0 V0

/-- The two log invariants every generated log enjoys as soon as the
solver only returns positive collision times: strictly increasing event
times, and each position reachable from its predecessor by straight-line
flight at the predecessor velocity. -/
theorem genEvents_sorted_linked (solver : Vec2 → Vec2 → Option (ℝ × Vec2))
    (P0 V0 : Vec2) (maxT : ℝ) (fuel : ℕ)
    (hpos : ∀ (P V : Vec2) (dt : ℝ) (nrm : Vec2),
      solver P V = some (dt, nrm) → 0 < dt) :
    List.Chain' (fun a b => a.time < b.time ∧
      b.position = a.position + (b.time - a.time) • a.velocity)
      (genEvents solver P0 V0 maxT fuel) := by
  refine genEvents_chain solver P0 V0 maxT fuel ?_
  intro ct P V dt nrm hs
  constructor
  · have := hpos P V dt nrm hs
    simp only
    linarith
  · simp only
    congr 1
    rw [add_sub_cancel_left]

/-! ### The trajectory evaluator on sorted logs -/

theorem countLt_nil (t : ℝ) : countLt [] t = 0 := rfl

theorem countLt_cons (e : Event) (tl : List Event) (t : ℝ) :
    countLt (e :: tl) t = countLt tl t + if e.time < t then 1 else 0 := by
  unfold countLt
  rw [List.countP_cons]
  by_cases h : e.time < t <;> simp [h]

theorem countLt_eq_zero (log : List Event) (t : ℝ)
    (h : ∀ e ∈ log, ¬ e.time < t) : countLt log t = 0 := by
  unfold countLt
  rw [List.countP_eq_zero]
  intro a ha
  simpa using h a ha

theorem countLt_eq_length (log : List Event) (t : ℝ)
    (h : ∀ e ∈ log, e.time < t) : countLt log t = log.length := by
  unfold countLt
  rw [List.countP_eq_length]
  intro a ha
  simpa using h a ha

theorem countLt_at_get : ∀ (log : List Event),
    List.Pairwise (fun a b => a.time < b.time) log →
    ∀ (i : ℕ) (hi : i < log.length),
      countLt log ((log.get ⟨i, hi⟩).time) = i := by
  intro log
  induction log with
  | nil =>
    intro _ i hi
    simp at hi
  | cons e tl ih =>
    intro hs i hi
    obtain ⟨he, htl⟩ := List.pairwise_cons.mp hs
    match i with
    | 0 =>
      have hget : ((e :: tl).get ⟨0, hi⟩) = e := rfl
      rw [hget, countLt_cons, if_neg (lt_irrefl _),
        countLt_eq_zero tl e.time (fun b hb => not_lt_of_gt (he b hb))]
    | j + 1 =>
      have hj : j < tl.length := by
        simpa using hi
      have hget : ((e :: tl).get ⟨j + 1, hi⟩) = tl.get ⟨j, hj⟩ := rfl
      rw [hget, countLt_cons, ih htl j hj,
        if_pos (he _ (tl.get_mem _ _))]

/-- Evaluating a sorted, linked log at the i-th event time returns exactly
the i-th event position. -/
theorem eval_at_get (log : List Event)
    (hlog : List.Chain' (fun a b => a.time < b.time ∧
      b.position = a.position + (b.time - a.time) • a.velocity) log)
    (i : ℕ) (hi : i < log.length) :
    evaluateTrajectory log ((log.get ⟨i, hi⟩).time) =
      (log.get ⟨i, hi⟩).position := by
  have hsorted : List.Pairwise (fun a b => a.time < b.time) log := by
    have hchain : List.Chain' (fun a b : Event => a.time < b.time) log :=
      hlog.imp (fun _ _ h => h.1)
    exact List.chain'_iff_pairwise.mp hchain
  have hcount := countLt_at_get log hsorted i hi
  unfold evaluateTrajectory evalIdx
  rw [hcount]
  match i with
  | 0 =>
    have hidx : min (0 - 1) (log.length - 1) = 0 := by omega
    rw [hidx, List.getD_eq_get log dfltEvent hi]
    ext <;> simp
  | j + 1 =>
    have hidx : min (j + 1 - 1) (log.length - 1) = j := by omega
    have hj : j < log.length := by omega
    rw [hidx, List.getD_eq_get log dfltEvent hj]
    have hlink := (List.chain'_iff_get.mp hlog) j (by omega)
    rw [hlink.2]

/-- When no event time is below the query time, the evaluator clips the
index to 0 and extrapolates from the head event. -/
theorem eval_head (e : Event) (rest : List Event) (t : ℝ)
    (h : ∀ a ∈ e :: rest, ¬ a.time < t) :
    evaluateTrajectory (e :: rest) t =
      e.position + (t - e.time) • e.velocity := by
  unfold evaluateTrajectory evalIdx
  rw [countLt_eq_zero _ _ h]
  simp

/-- When every event time is below the query time, the evaluator clips the
index to the last event and extrapolates from it. -/
theorem eval_last (log : List Event) (hne : log ≠ []) (t : ℝ)
    (h : ∀ a ∈ log, a.time < t) :
    evaluateTrajectory log t =
      (log.getLast hne).position +
        (t - (log.getLast hne).time) • (log.getLast hne).velocity := by
  unfold evaluateTrajectory evalIdx
  rw [countLt_eq_length _ _ h]
  have hlen : 0 < log.length := List.length_pos.mpr hne
  have hidx : min (log.length - 1) (log.length - 1) = log.length - 1 := by
    omega
  rw [hidx, List.getD_eq_getElem log dfltEvent (by omega),
    List.getLast_eq_getElem]

/-- In a strictly time-sorted log, every event time is at most the last
event's time. -/
theorem time_le_getLast : ∀ (log : List Event) (hne : log ≠ []),
    List.Pairwise (fun a b => a.time < b.time) log →
    ∀ a ∈ log, a.time ≤ (log.getLast hne).time := by
  intro log
  induction log with
  | nil =>
    intro hne
    exact absurd rfl hne
  | cons e tl ih =>
    intro hne hs a ha
    obtain ⟨he, htl⟩ := List.pairwise_cons.mp hs
    cases tl with
    | nil =>
      rcases List.mem_singleton.mp ha with rfl
      exact le_refl _
    | cons b tl' =>
      rw [List.getLast_cons (List.cons_ne_nil b tl')]
      rcases List.mem_cons.mp ha with rfl | ha'
      · have hmem := List.getLast_mem (List.cons_ne_nil b tl')
        exact le_of_lt (he _ hmem)
      · exact ih (List.cons_ne_nil b tl') htl a ha'

/-! ### Numeric bounds on the 37-degree heading -/

theorem th37_lb : (0.6457716 : ℝ) < th37 := by
  unfold th37
  linarith [Real.pi_gt_d6]

theorem th37_ub : th37 < (0.6457719 : ℝ) := by
  unfold th37
  linarith [Real.pi_lt_d6]

theorem th37_pos : (0 : ℝ) < th37 := by
  linarith [th37_lb]

theorem th37_sq_lb : (0.4170209 : ℝ) ≤ th37 ^ 2 := by
  nlinarith [th37_lb, th37_ub]

theorem th37_sq_ub : th37 ^ 2 ≤ (0.4170214 : ℝ) := by
  nlinarith [th37_lb, th37_ub]

theorem th37_cube_lb : (0.26929 : ℝ) ≤ th37 ^ 3 := by
  nlinarith [th37_lb, th37_ub, th37_sq_lb, th37_sq_ub, th37_pos]

theorem th37_cube_ub : th37 ^ 3 ≤ (0.26931 : ℝ) := by
  nlinarith [th37_lb, th37_ub, th37_sq_lb, th37_sq_ub, th37_pos]

theorem th37_quart_ub : th37 ^ 4 ≤ (0.173907 : ℝ) := by
  nlinarith [th37_sq_lb, th37_sq_ub, sq_nonneg th37]

theorem cos37_lb : (0.782 : ℝ) < Real.cos th37 := by
  have habs : |th37| ≤ 1 := abs_le.mpr ⟨by linarith [th37_pos], by linarith [th37_ub]⟩
  have hb := Real.cos_bound habs
  rw [abs_of_pos th37_pos] at hb
  obtain ⟨h1, h2⟩ := abs_le.mp hb
  linarith [th37_sq_ub, th37_quart_ub, h1]

theorem cos37_ub : Real.cos th37 < (0.801 : ℝ) := by
  have habs : |th37| ≤ 1 := abs_le.mpr ⟨by linarith [th37_pos], by linarith [th37_ub]⟩
  have hb := Real.cos_bound habs
  rw [abs_of_pos th37_pos] at hb
  obtain ⟨h1, h2⟩ := abs_le.mp hb
  linarith [th37_sq_lb, th37_quart_ub, h2]

theorem sin37_lb : (0.591 : ℝ) < Real.sin th37 := by
  have habs : |th37| ≤ 1 := abs_le.mpr ⟨by linarith [th37_pos], by linarith [th37_ub]⟩
  have hb := Real.sin_bound habs
  rw [abs_of_pos th37_pos] at hb
  obtain ⟨h1, h2⟩ := abs_le.mp hb
  linarith [th37_lb, th37_cube_ub, th37_quart_ub, h1]

theorem sin37_ub : Real.sin th37 < (0.6101 : ℝ) := by
  have habs : |th37| ≤ 1 := abs_le.mpr ⟨by linarith [th37_pos], by linarith [th37_ub]⟩
  have hb := Real.sin_bound habs
  rw [abs_of_pos th37_pos] at hb
  obtain ⟨h1, h2⟩ := abs_le.mp hb
  linarith [th37_ub, th37_cube_lb, th37_quart_ub, h2]

/-! ### Branch equations of the rounded-rectangle solver -/

theorem xWalls_pos_reject (P V : Vec2) (W H R : ℝ) (hVx : 0 < V.x)
    (hrej : ¬ (1e-9 < (W / 2 - P.x) / V.x ∧
      |P.y + V.y * ((W / 2 - P.x) / V.x)| ≤ H / 2 - R)) :
    xWalls P V W H R none = none := by
  unfold xWalls
  rw [if_pos hVx]
  unfold upd
  rw [if_neg]
  intro hand
  exact hrej hand.1

theorem yWalls_pos_accept (P V : Vec2) (W H R : ℝ) (hVy : 0 < V.y)
    (hacc : 1e-9 < (H / 2 - P.y) / V.y ∧
      |P.x + V.x * ((H / 2 - P.y) / V.y)| ≤ W / 2 - R) :
    yWalls P V W H R none = some ((H / 2 - P.y) / V.y, ⟨0, -1⟩) := by
  unfold yWalls
  rw [if_pos hVy]
  unfold upd
  rw [if_pos ⟨hacc, by simp⟩]

theorem cornerUpd_eq (P V : Vec2) (R : ℝ) (C : Vec2) (st : Option (ℝ × Vec2)) :
    cornerUpd P V R C st =
      if 0 ≤ (2 * Vec2.dot V (P - C)) ^ 2 -
          4 * Vec2.dot V V * (Vec2.dot (P - C) (P - C) - R ^ 2) then
        tryRoot P V C R
          ((-(2 * Vec2.dot V (P - C)) +
            Real.sqrt ((2 * Vec2.dot V (P - C)) ^ 2 -
              4 * Vec2.dot V V * (Vec2.dot (P - C) (P - C) - R ^ 2))) /
            (2 * Vec2.dot V V))
          (tryRoot P V C R
            ((-(2 * Vec2.dot V (P - C)) -
              Real.sqrt ((2 * Vec2.dot V (P - C)) ^ 2 -
                4 * Vec2.dot V V * (Vec2.dot (P - C) (P - C) - R ^ 2))) /
              (2 * Vec2.dot V V)) st)
      else st := rfl

/-- A corner whose discriminant is negative leaves the candidate state
unchanged. -/
theorem cornerUpd_skip (P V : Vec2) (R : ℝ) (C : Vec2)
    (st : Option (ℝ × Vec2))
    (h : (2 * Vec2.dot V (P - C)) ^ 2 -
      4 * Vec2.dot V V * (Vec2.dot (P - C) (P - C) - R ^ 2) < 0) :
    cornerUpd P V R C st = st := by
  rw [cornerUpd_eq, if_neg (not_le.mpr h)]

/-- Full evaluation of the rounded-rectangle solver on the initial state
of the concrete scenario W=16, H=7, R=1.5, speed 6, heading 37 degrees:
the right-wall candidate is rejected because its hit ordinate
8 tan 37 is above the straight span, the top-wall candidate is accepted,
and all four corner discriminants are negative, so the first collision is
the top wall at time (H/2)/(6 sin 37). -/
theorem ads37_eval :
    adsGetNextCollision ⟨0, 0⟩ ((6 : ℝ) • ⟨Real.cos th37, Real.sin th37⟩)
      16 7 (3 / 2)
    = some ((7 / 2 - 0) / (6 * Real.sin th37), ⟨0, -1⟩) := by
  have hc1 := cos37_lb
  have hc2 := cos37_ub
  have hs1 := sin37_lb
  have hs2 := sin37_ub
  have hss : Real.sin th37 ^ 2 + Real.cos th37 ^ 2 = 1 :=
    Real.sin_sq_add_cos_sq th37
  have hVeq : ((6 : ℝ) • (⟨Real.cos th37, Real.sin th37⟩ : Vec2)) =
      (⟨6 * Real.cos th37, 6 * Real.sin th37⟩ : Vec2) := rfl
  rw [hVeq]
  set c := Real.cos th37 with hcdef
  set s := Real.sin th37 with hsdef
  have hcpos : (0 : ℝ) < c := by linarith
  have hspos : (0 : ℝ) < s := by linarith
  unfold adsGetNextCollision
  -- the vertical walls: candidate rejected
  rw [xWalls_pos_reject _ _ _ _ _ (by simpa using by nlinarith : (0 : ℝ) <
      (Vec2.mk (6 * c) (6 * s)).x) ?hrej]
  case hrej =>
    simp only [Vec2.mk_x, Vec2.mk_y]
    intro hand
    obtain ⟨_, hspan⟩ := hand
    rw [abs_le] at hspan
    obtain ⟨_, hup⟩ := hspan
    have harith : (0 : ℝ) + 6 * s * ((16 / 2 - 0) / (6 * c)) = 8 * s / c := by
      field_simp
      ring
    rw [harith] at hup
    rw [div_le_iff hcpos] at hup
    nlinarith
  -- the horizontal walls: top-wall candidate accepted
  rw [yWalls_pos_accept _ _ _ _ _ (by simpa using by nlinarith : (0 : ℝ) <
      (Vec2.mk (6 * c) (6 * s)).y) ?hacc]
  case hacc =>
    simp only [Vec2.mk_x, Vec2.mk_y]
    constructor
    · rw [lt_div_iff (by nlinarith : (0 : ℝ) < 6 * s)]
      nlinarith
    · have harith : (0 : ℝ) + 6 * c * ((7 / 2 - 0) / (6 * s)) =
          7 * c / (2 * s) := by
        field_simp
        ring
      rw [harith, abs_of_pos (by positivity), div_le_iff (by nlinarith :
        (0 : ℝ) < 2 * s)]
      nlinarith
  -- all four corner discriminants are negative
  rw [cornerUpd_skip _ _ _ _ _ (by
    simp only [Vec2.dot, Vec2.sub_x, Vec2.sub_y, Vec2.mk_x, Vec2.mk_y]
    nlinarith [hss])]
  rw [cornerUpd_skip _ _ _ _ _ (by
    simp only [Vec2.dot, Vec2.sub_x, Vec2.sub_y, Vec2.mk_x, Vec2.mk_y]
    nlinarith [hss])]
  rw [cornerUpd_skip _ _ _ _ _ (by
    simp only [Vec2.dot, Vec2.sub_x, Vec2.sub_y, Vec2.mk_x, Vec2.mk_y]
    nlinarith [hss])]
  rw [cornerUpd_skip _ _ _ _ _ (by
    simp only [Vec2.dot, Vec2.sub_x, Vec2.sub_y, Vec2.mk_x, Vec2.mk_y]
    nlinarith [hss])]

/-! ### Degenerate zero velocity -/

theorem tryRoot_zero (P V C : Vec2) (R : ℝ) (st : Option (ℝ × Vec2)) :
    tryRoot P V C R 0 st = st := by
  unfold tryRoot
  rw [if_neg]
  rintro ⟨h, _⟩
  norm_num at h

/-- With a zero velocity no wall branch is entered and both corner roots
collapse to the junk value 0, so the rounded-rectangle solver reports no
collision for every position and geometry. -/
theorem ads_zero_vel (P : Vec2) (W H R : ℝ) :
    adsGetNextCollision P ⟨0, 0⟩ W H R = none := by
  have hx : xWalls P ⟨0, 0⟩ W H R none = none := by
    unfold xWalls
    norm_num
  have hy : yWalls P ⟨0, 0⟩ W H R none = none := by
    unfold yWalls
    norm_num
  have hcorner : ∀ (C : Vec2) (st : Option (ℝ × Vec2)),
      cornerUpd P ⟨0, 0⟩ R C st = st := by
    intro C st
    have hq : Vec2.dot (⟨0, 0⟩ : Vec2) (⟨0, 0⟩ : Vec2) = 0 := by
      simp [Vec2.dot]
    have hb : Vec2.dot (⟨0, 0⟩ : Vec2) (P - C) = 0 := by
      simp [Vec2.dot]
    rw [cornerUpd_eq, hq, hb]
    simp [Real.sqrt_zero, tryRoot_zero]
  unfold adsGetNextCollision
  rw [hx, hy, hcorner, hcorner, hcorner, hcorner]

/-- With speed 0 the rounded-rectangle generator runs, finds no collision
at the very first step (or exhausts a zero horizon) and returns just the
initial event: no configuration validation rejects the degenerate input. -/
theorem adsGenerateEvents_zero_speed (W H R maxT : ℝ) (fuel : ℕ) :
    adsGenerateEvents W H R 0 maxT fuel = [⟨0, ⟨0, 0⟩, ⟨0, 0⟩⟩] := by
  unfold adsGenerateEvents genEvents
  have hV0 : ((0 : ℝ) • (⟨Real.cos th37, Real.sin th37⟩ : Vec2)) =
      (⟨0, 0⟩ : Vec2) := by
    ext <;> simp
  rw [hV0]
  congr 1
  cases fuel with
  | zero => rfl
  | succ m =>
    unfold stepLoop
    simp only [ads_zero_vel]
    split <;> rfl

/-! ### Coarse bounds on the implicit surface -/

theorem arctan2_zero_pos (x : ℝ) (hx : 0 < x) : arctan2 0 x = 0 := by
  unfold arctan2
  rw [if_pos hx, zero_div, Real.arctan_zero]

theorem rippleFactor_le (k eps th : ℝ) (he : 0 ≤ eps) :
    rippleFactor k eps th ≤ 1 + eps * 2.3 := by
  unfold rippleFactor
  nlinarith [Real.sin_le_one th, Real.neg_one_le_sin th,
    Real.cos_le_one (k * th - 1.2), Real.neg_one_le_cos (k * th - 1.2),
    Real.sin_le_one ((k + 1) * th + 2.0),
    Real.neg_one_le_sin ((k + 1) * th + 2.0)]

theorem rippleFactor_ge (k eps th : ℝ) (he : 0 ≤ eps) :
    1 - eps * 2.3 ≤ rippleFactor k eps th := by
  unfold rippleFactor
  nlinarith [Real.sin_le_one th, Real.neg_one_le_sin th,
    Real.cos_le_one (k * th - 1.2), Real.neg_one_le_cos (k * th - 1.2),
    Real.sin_le_one ((k + 1) * th + 2.0),
    Real.neg_one_le_sin ((k + 1) * th + 2.0)]

theorem rEll_nonneg (a b th : ℝ) : 0 ≤ rEll a b th := by
  unfold rEll
  positivity

theorem rEll_le_max (a b th : ℝ) (ha : 0 < a) (hb : 0 < b) :
    rEll a b th ≤ max a b := by
  unfold rEll
  set M := max a b with hM
  have hM0 : 0 < M := lt_of_lt_of_le ha (le_max_left a b)
  have hcs := Real.sin_sq_add_cos_sq th
  have h1 : Real.cos th ^ 2 / M ^ 2 ≤ (Real.cos th / a) ^ 2 := by
    rw [div_pow]
    apply div_le_div_of_nonneg_left (sq_nonneg _) (by positivity)
    have : a ≤ M := le_max_left a b
    nlinarith
  have h2 : Real.sin th ^ 2 / M ^ 2 ≤ (Real.sin th / b) ^ 2 := by
    rw [div_pow]
    apply div_le_div_of_nonneg_left (sq_nonneg _) (by positivity)
    have : b ≤ M := le_max_right a b
    nlinarith
  have hq : (1 / M) ^ 2 ≤ (Real.cos th / a) ^ 2 + (Real.sin th / b) ^ 2 := by
    have : (1 / M) ^ 2 = Real.cos th ^ 2 / M ^ 2 + Real.sin th ^ 2 / M ^ 2 := by
      rw [div_pow, one_pow, div_add_div_same, add_comm (Real.cos th ^ 2), hcs]
    linarith
  have hsq : 1 / M ≤ Real.sqrt ((Real.cos th / a) ^ 2 + (Real.sin th / b) ^ 2) := by
    have := Real.sqrt_le_sqrt hq
    rwa [Real.sqrt_sq (by positivity)] at this
  have hsqpos : 0 < Real.sqrt ((Real.cos th / a) ^ 2 + (Real.sin th / b) ^ 2) :=
    lt_of_lt_of_le (by positivity) hsq
  rw [div_le_iff hsqpos]
  calc (1 : ℝ) = M * (1 / M) := by field_simp
  _ ≤ M * Real.sqrt ((Real.cos th / a) ^ 2 + (Real.sin th / b) ^ 2) := by
      apply mul_le_mul_of_nonneg_left hsq (le_of_lt hM0)

theorem rEll_at_zero (a b : ℝ) (ha : 0 < a) : rEll a b 0 = a := by
  unfold rEll
  rw [Real.cos_zero, Real.sin_zero]
  have h1 : (1 / a) ^ 2 + (0 / b) ^ 2 = (1 / a) ^ 2 := by
    rw [zero_div]
    norm_num
  rw [h1, Real.sqrt_sq (by positivity), one_div_one_div]

/-- Far to the right of the table, on the axis y = 0, the surface function
of the hole variant with W=14, H=7, k=5, eps=1/4 reduces to the outer
term x minus the constant outer radius at angle zero: the inner-hole term
is dominated because the point is far outside the hole. -/
theorem tableSurface_y0 (x : ℝ) (hx1 : 999 ≤ x) (hx2 : x ≤ 1001) :
    tableSurface x 0 14 7 5 (1 / 4) =
      x - 7 * rippleFactor 5 (1 / 4) 0 := by
  have hxpos : (0 : ℝ) < x := by linarith
  have hrho0_le : rippleFactor 5 (1 / 4) 0 ≤ 1 + (1 / 4) * 2.3 :=
    rippleFactor_le 5 (1 / 4) 0 (by norm_num)
  unfold tableSurface
  simp only
  rw [arctan2_zero_pos x hxpos]
  rw [rEll_at_zero (14 / 2) (7 / 2) (by norm_num)]
  have hsq : Real.sqrt (x ^ 2 + 0 ^ 2) = x := by
    rw [show x ^ 2 + (0 : ℝ) ^ 2 = x ^ 2 by norm_num,
      Real.sqrt_sq (by linarith)]
  rw [hsq]
  -- the inner term: the point is at distance about x - 0.7 from the hole
  have hdist : x - 14 * 0.05 ≤
      Real.sqrt ((x - 14 * 0.05) ^ 2 + (0 - 7 * 0.05) ^ 2) := by
    have h1 : Real.sqrt ((x - 14 * 0.05) ^ 2) ≤
        Real.sqrt ((x - 14 * 0.05) ^ 2 + (0 - 7 * 0.05) ^ 2) :=
      Real.sqrt_le_sqrt (by nlinarith)
    rw [Real.sqrt_sq (by norm_num; linarith)] at h1
    exact h1
  have hrin : rEll (14 * 0.35 / 2) (7 * 0.35 / 2) (arctan2 (0 - 7 * 0.05)
      (x - 14 * 0.05)) * rippleFactor 1 (1 / 4) (arctan2 (0 - 7 * 0.05)
      (x - 14 * 0.05)) ≤ (14 * 0.35 / 2) * (1 + (1 / 4) * 2.3) := by
    apply mul_le_mul
    · have := rEll_le_max (14 * 0.35 / 2) (7 * 0.35 / 2)
        (arctan2 (0 - 7 * 0.05) (x - 14 * 0.05)) (by norm_num) (by norm_num)
      rwa [max_eq_left (by norm_num)] at this
    · exact rippleFactor_le _ _ _ (by norm_num)
    · have := rippleFactor_ge 1 (1 / 4)
        (arctan2 (0 - 7 * 0.05) (x - 14 * 0.05)) (by norm_num)
      linarith
    · norm_num
  rw [max_eq_left]
  · ring
  · nlinarith [hdist, hrin, hrho0_le]

theorem rayG_1000 (t : ℝ) :
    rayG ⟨1000, 0⟩ ⟨1, 0⟩ 14 7 5 (1 / 4) t =
      tableSurface (1000 + t) 0 14 7 5 (1 / 4) := by
  unfold rayG
  norm_num

theorem rayG_1000_pos (t : ℝ) (h1 : 0 ≤ t) (h2 : t ≤ 1) :
    0 < rayG ⟨1000, 0⟩ ⟨1, 0⟩ 14 7 5 (1 / 4) t := by
  rw [rayG_1000, tableSurface_y0 (1000 + t) (by linarith) (by linarith)]
  have := rippleFactor_le 5 (1 / 4) 0 (by norm_num)
  nlinarith

theorem march_succ (g : ℝ → ℝ) (s : ℝ) (n : ℕ) (t : ℝ) :
    march g s (n + 1) t =
      if 0 < g (t + s) then some t else march g s n (t + s) := rfl

theorem norm_e1 : Vec2.norm ⟨1, 0⟩ = 1 := by
  apply Vec2.norm_eq_one_of_sq
  norm_num

/-- Full evaluation of the hole-variant solver on a ray that starts far
outside the table: the very first march step already reports the surface
positive, so the bracket is (1e-5, 1e-5 + step) with the lower end never
sampled; the surface is positive on the whole bracket, hence all 45
bisection midpoints move the upper end and the returned hit time is
1e-5 + step/2^46. -/
theorem hole_1000_eval :
    holeGetNextCollision ⟨1000, 0⟩ ⟨1, 0⟩ 14 7 5 (1 / 4) =
      some (1e-5 + 0.01 / 2 ^ 46,
        -(getNormal 14 7 5 (1 / 4) (1000 + (1e-5 + 0.01 / 2 ^ 46)) 0)) := by
  have hstep : (0.01 : ℝ) / Vec2.norm ⟨1, 0⟩ = 0.01 := by
    rw [norm_e1, div_one]
  have hmarch : march (rayG ⟨1000, 0⟩ ⟨1, 0⟩ 14 7 5 (1 / 4)) 0.01 30000 1e-5 =
      some 1e-5 := by
    rw [show (30000 : ℕ) = 29999 + 1 from rfl, march_succ]
    rw [if_pos (rayG_1000_pos _ (by norm_num) (by norm_num))]
  have hbisect : bisect (rayG ⟨1000, 0⟩ ⟨1, 0⟩ 14 7 5 (1 / 4)) 45 1e-5
      (1e-5 + 0.01) = (1e-5, 1e-5 + (1e-5 + 0.01 - 1e-5) / 2 ^ 45) := by
    apply bisect_all_pos
    · norm_num
    · intro u hu1 hu2
      exact rayG_1000_pos u (by linarith) (by linarith)
  unfold holeGetNextCollision holeHit
  rw [hstep, hmarch]
  simp only [hbisect]
  rw [Option.some.injEq, Prod.mk.injEq]
  constructor
  · norm_num
  · simp only [Vec2.add_x, Vec2.add_y, Vec2.smul_x, Vec2.smul_y,
      Vec2.mk_x, Vec2.mk_y]
    norm_num

/-- At the hit point of the outside-ray scenario the finite-difference
x-derivative is exactly 1: both sampled points lie on the axis where the
surface equals x minus a constant. -/
theorem gradVec_1000_x :
    (gradVec 14 7 5 (1 / 4) (1000 + (1e-5 + 0.01 / 2 ^ 46)) 0).x = 1 := by
  unfold gradVec
  simp only [Vec2.mk_x]
  rw [tableSurface_y0 _ (by norm_num) (by norm_num),
    tableSurface_y0 _ (by norm_num) (by norm_num)]
  ring_nf

theorem gradVec_1000_ne :
    gradVec 14 7 5 (1 / 4) (1000 + (1e-5 + 0.01 / 2 ^ 46)) 0 ≠ 0 := by
  intro h0
  have hx := gradVec_1000_x
  rw [h0] at hx
  simp at hx

/-- Full evaluation of the rounded-rectangle solver on the purely
horizontal rational ray from the origin: the right wall is hit at t = 8
and all corner discriminants are negative. -/
theorem ads_eval_horizontal :
    adsGetNextCollision ⟨0, 0⟩ ⟨1, 0⟩ 16 7 (3 / 2) =
      some ((16 / 2 - 0) / 1, ⟨-1, 0⟩) := by
  unfold adsGetNextCollision
  have hx : xWalls ⟨0, 0⟩ ⟨1, 0⟩ 16 7 (3 / 2) none =
      some ((16 / 2 - 0) / 1, ⟨-1, 0⟩) := by
    unfold xWalls
    rw [if_pos (by norm_num : (0 : ℝ) < (Vec2.mk 1 0).x)]
    unfold upd
    rw [if_pos]
    refine ⟨⟨by norm_num, by norm_num⟩, by simp⟩
  have hy : ∀ st : Option (ℝ × Vec2),
      yWalls ⟨0, 0⟩ ⟨1, 0⟩ 16 7 (3 / 2) st = st := by
    intro st
    unfold yWalls
    rw [if_neg (by norm_num), if_neg (by norm_num)]
  rw [hx] at *
  rw [hy]
  rw [cornerUpd_skip _ _ _ _ _ (by
    simp only [Vec2.dot, Vec2.sub_x, Vec2.sub_y, Vec2.mk_x, Vec2.mk_y]
    norm_num)]
  rw [cornerUpd_skip _ _ _ _ _ (by
    simp only [Vec2.dot, Vec2.sub_x, Vec2.sub_y, Vec2.mk_x, Vec2.mk_y]
    norm_num)]
  rw [cornerUpd_skip _ _ _ _ _ (by
    simp only [Vec2.dot, Vec2.sub_x, Vec2.sub_y, Vec2.mk_x, Vec2.mk_y]
    norm_num)]
  rw [cornerUpd_skip _ _ _ _ _ (by
    simp only [Vec2.dot, Vec2.sub_x, Vec2.sub_y, Vec2.mk_x, Vec2.mk_y]
    norm_num)]

theorem march_1000 :
    march (rayG ⟨1000, 0⟩ ⟨1, 0⟩ 14 7 5 (1 / 4)) (0.01 / Vec2.norm ⟨1, 0⟩)
      30000 1e-5 = some 1e-5 := by
  rw [show (0.01 : ℝ) / Vec2.norm ⟨1, 0⟩ = 0.01 by rw [norm_e1, div_one]]
  rw [show (30000 : ℕ) = 29999 + 1 from rfl, march_succ]
  rw [if_pos (rayG_1000_pos _ (by norm_num) (by norm_num))]

/-! ### The claims -/

/-- C1 (counterexample): in the concrete scenario W=16, H=7, R=1.5,
speed 6, heading 37 degrees from the origin, the solver does NOT report
the first collision at the right wall with normal (-1, 0): the right-wall
hit ordinate 8 tan 37 lies outside the straight span |y| <= H/2 - R, so
the right-wall candidate is rejected and the first collision is the top
wall with normal (0, -1). -/
theorem c1_counterexample :
    (adsGetNextCollision ⟨0, 0⟩ ((6 : ℝ) • ⟨Real.cos th37, Real.sin th37⟩)
      16 7 (3 / 2)).map Prod.snd ≠ some ⟨-1, 0⟩ := by
  rw [ads37_eval]
  intro h
  simp only [Option.map_some', Option.some.injEq] at h
  have hx := congrArg Vec2.x h
  simp at hx

/-- C1 (amended): in the concrete scenario W=16, H=7, R=1.5, speed 6,
heading 37 degrees from the origin, the solver reports the first collision
at the TOP wall with inward normal (0, -1) at time
t = (H/2 - 0)/(6 sin 37), and the horizontal hit point lies within the top
wall's straight span |x| <= W/2 - R. -/
theorem c1_first_collision_top_wall :
    adsGetNextCollision ⟨0, 0⟩ ((6 : ℝ) • ⟨Real.cos th37, Real.sin th37⟩)
        16 7 (3 / 2) =
      some ((7 / 2 - 0) / (6 * Real.sin th37), ⟨0, -1⟩) ∧
    |0 + 6 * Real.cos th37 * ((7 / 2 - 0) / (6 * Real.sin th37))| ≤
      16 / 2 - 3 / 2 := by
  refine ⟨ads37_eval, ?_⟩
  have hc1 := cos37_lb
  have hc2 := cos37_ub
  have hs1 := sin37_lb
  have hs2 := sin37_ub
  have harith : (0 : ℝ) + 6 * Real.cos th37 *
      ((7 / 2 - 0) / (6 * Real.sin th37)) =
      7 * Real.cos th37 / (2 * Real.sin th37) := by
    field_simp
    ring
  rw [harith, abs_of_pos (by apply div_pos <;> nlinarith),
    div_le_iff (by nlinarith : (0 : ℝ) < 2 * Real.sin th37)]
  nlinarith

/-- C2: for every event appended by the event-generation loop, with any
solver whose returned normals are unit vectors (this covers both
variants), the Euclidean norm of the velocity after the specular
reflection V - 2 (V.N) N equals the norm before it, exactly. -/
theorem c2_speed_conservation (solver : Vec2 → Vec2 → Option (ℝ × Vec2))
    (P0 V0 : Vec2) (maxT : ℝ) (fuel : ℕ)
    (hunit : ∀ (P V : Vec2) (t : ℝ) (n : Vec2),
      solver P V = some (t, n) → Vec2.norm n = 1) :
    List.Chain' (fun a b => Vec2.norm b.velocity = Vec2.norm a.velocity)
      (genEvents solver P0 V0 maxT fuel) := by
  refine genEvents_chain solver P0 V0 maxT fuel ?_
  intro ct P V dt nrm hs
  simp only
  exact reflect_norm V nrm (hunit P V dt nrm hs)

theorem c2_witness :
    List.Chain' (fun a b => Vec2.norm b.velocity = Vec2.norm a.velocity)
      (genEvents (fun _ _ => some (1, ⟨0, 1⟩)) ⟨0, 0⟩ ⟨3, 4⟩ 1 2) := by
  apply c2_speed_conservation
  intro P V t n hs
  simp only [Option.some.injEq, Prod.mk.injEq] at hs
  rw [← hs.2]
  exact Vec2.norm_eq_one_of_sq _ (by norm_num)

/-- C3: in both variants and for every geometry, speed, horizon and fuel,
the sequence of event times of the generated log is strictly increasing
(every accepted collision time is strictly positive). -/
theorem c3_monotone_times :
    (∀ (W H R speed maxT : ℝ) (fuel : ℕ),
      List.Chain' (fun a b => a.time < b.time)
        (adsGenerateEvents W H R speed maxT fuel)) ∧
    (∀ (W H k eps speed maxT : ℝ) (fuel : ℕ),
      List.Chain' (fun a b => a.time < b.time)
        (holeGenerateEvents W H k eps speed maxT fuel)) := by
  constructor
  · intro W H R speed maxT fuel
    have h := genEvents_sorted_linked
      (fun P V => adsGetNextCollision P V W H R) ⟨0, 0⟩
      (speed • ⟨Real.cos th37, Real.sin th37⟩) maxT fuel ?_
    · exact h.imp (fun _ _ hh => hh.1)
    · intro P V dt nrm hs
      have := ads_time_pos P V W H R dt nrm hs
      linarith
  · intro W H k eps speed maxT fuel
    have h := genEvents_sorted_linked
      (fun P V => holeGetNextCollision P V W H k eps) ⟨-W / 3, 0⟩
      (speed • ⟨Real.cos th37, Real.sin th37⟩) maxT fuel ?_
    · exact h.imp (fun _ _ hh => hh.1)
    · intro P V dt nrm hs
      exact hole_time_pos P V W H k eps dt nrm hs

/-- C4: in both variants, evaluating the trajectory at the i-th event time
of a generated log returns exactly the i-th event position. -/
theorem c4_eval_consistency :
    (∀ (W H R speed maxT : ℝ) (fuel i : ℕ)
      (hi : i < (adsGenerateEvents W H R speed maxT fuel).length),
      evaluateTrajectory (adsGenerateEvents W H R speed maxT fuel)
        (((adsGenerateEvents W H R speed maxT fuel).getD i dfltEvent).time) =
      ((adsGenerateEvents W H R speed maxT fuel).getD i dfltEvent).position) ∧
    (∀ (W H k eps speed maxT : ℝ) (fuel i : ℕ)
      (hi : i < (holeGenerateEvents W H k eps speed maxT fuel).length),
      evaluateTrajectory (holeGenerateEvents W H k eps speed maxT fuel)
        (((holeGenerateEvents W H k eps speed maxT fuel).getD i
          dfltEvent).time) =
      ((holeGenerateEvents W H k eps speed maxT fuel).getD i
        dfltEvent).position) := by
  constructor
  · intro W H R speed maxT fuel i hi
    have hlog := genEvents_sorted_linked
      (fun P V => adsGetNextCollision P V W H R) ⟨0, 0⟩
      (speed • ⟨Real.cos th37, Real.sin th37⟩) maxT fuel ?_
    · rw [List.getD_eq_get _ _ hi]
      exact eval_at_get _ hlog i hi
    · intro P V dt nrm hs
      have := ads_time_pos P V W H R dt nrm hs
      linarith
  · intro W H k eps speed maxT fuel i hi
    have hlog := genEvents_sorted_linked
      (fun P V => holeGetNextCollision P V W H k eps) ⟨-W / 3, 0⟩
      (speed • ⟨Real.cos th37, Real.sin th37⟩) maxT fuel ?_
    · rw [List.getD_eq_get _ _ hi]
      exact eval_at_get _ hlog i hi
    · intro P V dt nrm hs
      exact hole_time_pos P V W H k eps dt nrm hs

theorem c4_witness :
    evaluateTrajectory (adsGenerateEvents 16 7 (3 / 2) 6 5 0)
        (((adsGenerateEvents 16 7 (3 / 2) 6 5 0).getD 0 dfltEvent).time) =
      ((adsGenerateEvents 16 7 (3 / 2) 6 5 0).getD 0 dfltEvent).position ∧
    evaluateTrajectory (holeGenerateEvents 14 7 5 (1 / 4) 6 5 0)
        (((holeGenerateEvents 14 7 5 (1 / 4) 6 5 0).getD 0 dfltEvent).time) =
      ((holeGenerateEvents 14 7 5 (1 / 4) 6 5 0).getD 0 dfltEvent).position :=
  ⟨c4_eval_consistency.1 16 7 (3 / 2) 6 5 0 0
      (by simp [adsGenerateEvents, genEvents]),
   c4_eval_consistency.2 14 7 5 (1 / 4) 6 5 0 0
      (by simp [holeGenerateEvents, genEvents])⟩

/-- C5: for every non-empty event log whose head records time 0 and whose
times are strictly increasing (the shape every generated log has),
evaluating at query time 0 returns the initial position exactly, and
evaluating at any query time beyond the last event's time extrapolates
linearly from the last event using the final velocity. -/
theorem c5_boundary_eval (e : Event) (rest : List Event)
    (h0 : e.time = 0)
    (hs : List.Chain' (fun a b => a.time < b.time) (e :: rest)) :
    evaluateTrajectory (e :: rest) 0 = e.position ∧
    ∀ t : ℝ, ((e :: rest).getLast (List.cons_ne_nil e rest)).time < t →
      evaluateTrajectory (e :: rest) t =
        ((e :: rest).getLast (List.cons_ne_nil e rest)).position +
          (t - ((e :: rest).getLast (List.cons_ne_nil e rest)).time) •
            ((e :: rest).getLast (List.cons_ne_nil e rest)).velocity := by
  have hpair : List.Pairwise (fun a b : Event => a.time < b.time)
      (e :: rest) := List.chain'_iff_pairwise.mp hs
  obtain ⟨he, _⟩ := List.pairwise_cons.mp hpair
  constructor
  · rw [eval_head e rest 0 ?_]
    · rw [h0]
      ext <;> simp
    · intro a ha
      rcases List.mem_cons.mp ha with rfl | ha'
      · rw [h0]
        exact lt_irrefl 0
      · have := he a ha'
        rw [h0] at this
        linarith
  · intro t ht
    apply eval_last (e :: rest) (List.cons_ne_nil e rest) t
    intro a ha
    have := time_le_getLast (e :: rest) (List.cons_ne_nil e rest) hpair a ha
    linarith

theorem c5_witness :
    evaluateTrajectory
      [⟨0, ⟨0, 0⟩, ⟨1, 2⟩⟩, ⟨1, ⟨1, 2⟩, ⟨3, 4⟩⟩] 0 = ⟨0, 0⟩ ∧
    evaluateTrajectory
      [⟨0, ⟨0, 0⟩, ⟨1, 2⟩⟩, ⟨1, ⟨1, 2⟩, ⟨3, 4⟩⟩] 2 =
      (⟨1, 2⟩ : Vec2) + ((2 : ℝ) - 1) • ⟨3, 4⟩ := by
  have h := c5_boundary_eval ⟨0, ⟨0, 0⟩, ⟨1, 2⟩⟩ [⟨1, ⟨1, 2⟩, ⟨3, 4⟩⟩] rfl
    (List.chain'_cons.mpr ⟨by norm_num, List.chain'_singleton _⟩)
  exact ⟨h.1, h.2 2 (by norm_num)⟩

/-- C6: in the shared event-generation loop of both variants, as soon as
the solver reports no collision the loop appends nothing more: the
generator halts and returns the event log accumulated so far (just the
initial event when the very first query finds no collision) instead of
raising an error. -/
theorem c6_halt_on_no_collision :
    (∀ (solver : Vec2 → Vec2 → Option (ℝ × Vec2)) (maxT : ℝ) (fuel : ℕ)
      (ct : ℝ) (P V : Vec2), solver P V = none →
      stepLoop solver maxT fuel ct P V = []) ∧
    (∀ (solver : Vec2 → Vec2 → Option (ℝ × Vec2)) (P0 V0 : Vec2)
      (maxT : ℝ) (fuel : ℕ), solver P0 V0 = none →
      genEvents solver P0 V0 maxT fuel = [⟨0, P0, V0⟩]) := by
  have h1 : ∀ (solver : Vec2 → Vec2 → Option (ℝ × Vec2)) (maxT : ℝ)
      (fuel : ℕ) (ct : ℝ) (P V : Vec2), solver P V = none →
      stepLoop solver maxT fuel ct P V = [] := by
    intro solver maxT fuel ct P V hs
    cases fuel with
    | zero => rfl
    | succ m =>
      unfold stepLoop
      rw [hs]
      split <;> rfl
  refine ⟨h1, ?_⟩
  intro solver P0 V0 maxT fuel hs
  unfold genEvents
  rw [h1 solver maxT fuel 0 P0 V0 hs]

theorem c6_witness :
    stepLoop (fun _ _ => none) 5 3 0 ⟨0, 0⟩ ⟨1, 1⟩ = [] ∧
    genEvents (fun _ _ => none) ⟨2, 3⟩ ⟨1, 1⟩ 5 4 = [⟨0, ⟨2, 3⟩, ⟨1, 1⟩⟩] :=
  ⟨c6_halt_on_no_collision.1 _ 5 3 0 ⟨0, 0⟩ ⟨1, 1⟩ rfl,
   c6_halt_on_no_collision.2 _ ⟨2, 3⟩ ⟨1, 1⟩ 5 4 rfl⟩

/-- C7 (counterexample): a degenerate zero speed is NOT rejected before
simulation starts: generate_events of the rounded-rectangle variant runs
on it and returns a normal (truncated) log holding just the initial
event, instead of failing. -/
theorem c7_counterexample :
    adsGenerateEvents 16 7 (3 / 2) 0 5 3 = [⟨0, ⟨0, 0⟩, ⟨0, 0⟩⟩] :=
  adsGenerateEvents_zero_speed 16 7 (3 / 2) 5 3

/-- C7 (amended): no configuration validation exists: generate_events of
the rounded-rectangle variant accepts a zero speed for every geometry
(including degenerate radii R >= min(W, H)/2), runs, finds no collision
candidate at the first solver query and returns the initial event alone
rather than failing. -/
theorem c7_no_validation (W H R maxT : ℝ) (fuel : ℕ) :
    adsGenerateEvents W H R 0 maxT fuel = [⟨0, ⟨0, 0⟩, ⟨0, 0⟩⟩] :=
  adsGenerateEvents_zero_speed W H R maxT fuel

/-- C8 (counterexample): on the ray from (1000, 0) with velocity (1, 0)
(a start outside the table), the hole-variant solver brackets at the very
first march step and returns hit time 1e-5 + step/2^46, yet the surface
function at the bracket's lower end (the returned time minus half the
final bracket width, i.e. the never-sampled initial offset 1e-5) is
strictly POSITIVE, contradicting the claimed invariant that the surface is
<= 0 at the bracket's lower end after the 45 bisection iterations. -/
theorem c8_counterexample :
    (holeGetNextCollision ⟨1000, 0⟩ ⟨1, 0⟩ 14 7 5 (1 / 4)).map Prod.fst =
      some (1e-5 + 0.01 / 2 ^ 46) ∧
    0 < rayG ⟨1000, 0⟩ ⟨1, 0⟩ 14 7 5 (1 / 4)
      ((1e-5 + 0.01 / 2 ^ 46) - 0.01 / 2 ^ 46) := by
  constructor
  · rw [hole_1000_eval]
    simp
  · rw [show (1e-5 + 0.01 / 2 ^ 46) - 0.01 / 2 ^ 46 = (1e-5 : ℝ) by ring]
    exact rayG_1000_pos 1e-5 (by norm_num) (by norm_num)

/-- C8 (amended): the hole-variant solver marches along the ray from
offset 1e-5 in steps of size 0.01/|V| for at most 30000 steps; it reports
no collision exactly when no sampled step makes the surface positive.
Otherwise it runs exactly 45 bisection iterations on the first bracketing
step, after which the surface is > 0 at the bracket's upper end, the
bracket width is step/2^45 and the returned hit time is the bracket
midpoint; the surface is <= 0 at the bracket's lower end UNLESS that lower
end is the initial offset 1e-5 itself, which the march never samples. -/
theorem c8_march_bisect (P V : Vec2) (W H k eps : ℝ) :
    (holeGetNextCollision P V W H k eps = none ↔
      ∀ i : ℕ, i < 30000 →
        rayG P V W H k eps (1e-5 + (i + 1) * (0.01 / Vec2.norm V)) ≤ 0) ∧
    (∀ (t : ℝ) (n : Vec2), holeGetNextCollision P V W H k eps = some (t, n) →
      ∃ lo : ℝ,
        march (rayG P V W H k eps) (0.01 / Vec2.norm V) 30000 1e-5 =
          some lo ∧
        0 < rayG P V W H k eps (lo + 0.01 / Vec2.norm V) ∧
        0 < rayG P V W H k eps
          (bisect (rayG P V W H k eps) 45 lo (lo + 0.01 / Vec2.norm V)).2 ∧
        (bisect (rayG P V W H k eps) 45 lo (lo + 0.01 / Vec2.norm V)).2 -
          (bisect (rayG P V W H k eps) 45 lo (lo + 0.01 / Vec2.norm V)).1 =
          (0.01 / Vec2.norm V) / 2 ^ 45 ∧
        t = ((bisect (rayG P V W H k eps) 45 lo (lo + 0.01 / Vec2.norm V)).1 +
          (bisect (rayG P V W H k eps) 45 lo
            (lo + 0.01 / Vec2.norm V)).2) / 2 ∧
        (rayG P V W H k eps
            (bisect (rayG P V W H k eps) 45 lo
              (lo + 0.01 / Vec2.norm V)).1 ≤ 0 ∨
          (bisect (rayG P V W H k eps) 45 lo
            (lo + 0.01 / Vec2.norm V)).1 = 1e-5)) := by
  constructor
  · exact hole_none_iff P V W H k eps
  · intro t n h
    obtain ⟨lo, hm, _, hpos, hhigh, hwidth, hmid, hlow, _, _⟩ :=
      hole_some_bracket P V W H k eps t n h
    refine ⟨lo, hm, hpos, hhigh, hwidth, hmid, ?_⟩
    rcases hlow with hc | hc
    · exact Or.inr hc
    · exact Or.inl hc

theorem c8_witness :
    0 < rayG ⟨1000, 0⟩ ⟨1, 0⟩ 14 7 5 (1 / 4)
      (1e-5 + 0.01 / Vec2.norm ⟨1, 0⟩) := by
  obtain ⟨lo, hm, hpos, _⟩ :=
    (c8_march_bisect ⟨1000, 0⟩ ⟨1, 0⟩ 14 7 5 (1 / 4)).2 _ _ hole_1000_eval
  have hlo : lo = 1e-5 := by
    rw [march_1000] at hm
    exact (Option.some.injEq _ _ ▸ hm).symm
  rw [← hlo]
  exact hpos

/-- C9: every normal returned together with a finite collision time is a
unit vector: for the rounded-rectangle solver under the hypothesis that
the corner radius is nonzero (wall normals are axis-aligned unit vectors
and corner normals lie on a circle of radius |R| before their explicit
renormalization), and for the hole-variant solver under the hypothesis
that the finite-difference gradient at the hit point is nonzero. -/
theorem c9_normals_unit :
    (∀ (P V : Vec2) (W H R t : ℝ) (n : Vec2), R ≠ 0 →
      adsGetNextCollision P V W H R = some (t, n) → Vec2.norm n = 1) ∧
    (∀ (P V : Vec2) (W H k eps t : ℝ) (n : Vec2),
      holeGetNextCollision P V W H k eps = some (t, n) →
      gradVec W H k eps (P.x + V.x * t) (P.y + V.y * t) ≠ 0 →
      Vec2.norm n = 1) :=
  ⟨fun P V W H R t n hR h => ads_normal_unit P V W H R hR t n h,
   fun P V W H k eps t n h hg => hole_normal_unit P V W H k eps t n h hg⟩

theorem c9_witness :
    (adsGetNextCollision ⟨0, 0⟩ ⟨1, 0⟩ 16 7 (3 / 2)).map
      (fun p => Vec2.norm p.2) = some 1 ∧
    (holeGetNextCollision ⟨1000, 0⟩ ⟨1, 0⟩ 14 7 5 (1 / 4)).map
      (fun p => Vec2.norm p.2) = some 1 := by
  constructor
  · rw [ads_eval_horizontal]
    simp only [Option.map_some', Option.some.injEq]
    exact c9_normals_unit.1 ⟨0, 0⟩ ⟨1, 0⟩ 16 7 (3 / 2) ((16 / 2 - 0) / 1)
      ⟨-1, 0⟩ (by norm_num) ads_eval_horizontal
  · rw [hole_1000_eval]
    simp only [Option.map_some', Option.some.injEq]
    refine c9_normals_unit.2 ⟨1000, 0⟩ ⟨1, 0⟩ 14 7 5 (1 / 4)
      (1e-5 + 0.01 / 2 ^ 46) _ hole_1000_eval ?_
    convert gradVec_1000_ne using 2 <;> norm_num

/-- C10: the trajectory evaluator is total on every non-empty log, even at
the negative query times the spec excludes: the selected index is clipped
to 0, so for t < 0 it returns the initial position extrapolated backward
along the initial velocity. -/
theorem c10_negative_time (e : Event) (rest : List Event) (t : ℝ)
    (hnn : ∀ a ∈ e :: rest, 0 ≤ a.time) (h0 : e.time = 0) (ht : t < 0) :
    evaluateTrajectory (e :: rest) t = e.position + t • e.velocity := by
  rw [eval_head e rest t (fun a ha => not_lt.mpr
    (by linarith [hnn a ha]))]
  rw [h0, sub_zero]

theorem c10_witness :
    evaluateTrajectory [⟨0, ⟨2, 3⟩, ⟨1, 1⟩⟩] (-2) =
      (⟨2, 3⟩ : Vec2) + (-2 : ℝ) • ⟨1, 1⟩ := by
  refine c10_negative_time ⟨0, ⟨2, 3⟩, ⟨1, 1⟩⟩ [] (-2) ?_ rfl (by norm_num)
  intro a ha
  rcases List.mem_singleton.mp ha with rfl
  norm_num
